import Mathlib

/-!
Shallow embedding of the Sudoku core in `src/script.js`:
the constraint checker `isSafe`, the validator `validateBoard`, and the
backtracking solver `solveSudoku` (with `findEmpty`), together with the
preset-puzzle parsing used by `loadPuzzle`.

A board is the 2D array of the source: a list of rows, each a list of
naturals, with 0 meaning empty.  In-place mutation of the JavaScript board
is modelled by explicit state passing: `setCell` returns the updated board,
and the solver threads the board through the recursion.  Recursion of the
solver is modelled with explicit fuel (`none` = fuel exhausted), which also
lets us state the recursion-depth bound of the spec.
-/

abbrev Board := List (List Nat)

/-- Read `board[r][c]`; out-of-range reads default to 0. -/
def getCell (b : Board) (r c : Nat) : Nat := (b.getD r []).getD c 0

/-- Write `board[r][c] = v` (models the assignments `board[r][c] = d` and
`board[r][c] = 0` of the source). -/
def setCell (b : Board) (r c v : Nat) : Board := b.set r ((b.getD r []).set c v)

/-- The board is a well-formed 9x9 grid. -/
def WF (b : Board) : Prop := b.length = 9 ∧ ∀ row ∈ b, row.length = 9

instance (b : Board) : Decidable (WF b) := by unfold WF; infer_instance

/-- Source `isSafe(board, r, c, val)`: scan row `r`, column `c` and the 3x3
box of `(r, c)` for `val`; false as soon as any scanned cell holds `val`. -/
def isSafe (b : Board) (r c val : Nat) : Bool :=
  ((List.range 9).all fun j => getCell b r j != val) &&
  ((List.range 9).all fun i => getCell b i c != val) &&
  ((List.range 3).all fun i => (List.range 3).all fun j =>
    getCell b (r / 3 * 3 + i) (c / 3 * 3 + j) != val)

/-- Source `findEmpty(board)`: first cell holding 0 in row-major order. -/
def findEmpty (b : Board) : Option (Nat × Nat) :=
  ((List.range 81).find? fun i => getCell b (i / 9) (i % 9) == 0).map
    fun i => (i / 9, i % 9)

/-- Number of empty (zero) cells among the 81 positions of the grid. -/
def emptyCount (b : Board) : Nat :=
  (List.range 81).countP fun i => getCell b (i / 9) (i % 9) == 0

/-- `(r', c')` lies in the row, column, or 3x3 box of `(r, c)`. -/
def sameUnit (r c r' c' : Nat) : Prop :=
  r' = r ∨ c' = c ∨ (r' / 3 = r / 3 ∧ c' / 3 = c / 3)

instance (r c r' c' : Nat) : Decidable (sameUnit r c r' c') := by
  unfold sameUnit; infer_instance

/-- No cell other than `(r, c)` itself, in the row, column or box of
`(r, c)`, holds the value `v`. -/
def noOther (b : Board) (r c v : Nat) : Prop :=
  ∀ r', r' < 9 → ∀ c', c' < 9 → sameUnit r c r' c' → (r', c') ≠ (r, c) →
    getCell b r' c' ≠ v

instance (b : Board) (r c v : Nat) : Decidable (noOther b r c v) := by
  unfold noOther; infer_instance

/-- Every non-zero cell satisfies the row/column/box uniqueness constraint
relative to all other cells (the invariant of spec section 3). -/
def validB (b : Board) : Prop :=
  ∀ r, r < 9 → ∀ c, c < 9 → getCell b r c ≠ 0 → noOther b r c (getCell b r c)

instance (b : Board) : Decidable (validB b) := by unfold validB; infer_instance

/-! ### List indexing lemmas -/

theorem getD_set_eq {α : Type} (l : List α) (i : Nat) (v d : α)
    (h : i < l.length) : (l.set i v).getD i d = v := by
  induction l generalizing i with
  | nil => simp at h
  | cons a t ih =>
    cases i with
    | zero => simp
    | succ n =>
      simp only [List.set, List.getD_cons_succ]
      exact ih n (by simpa using h)

theorem getD_set_ne {α : Type} (l : List α) (i j : Nat) (v d : α)
    (h : i ≠ j) : (l.set i v).getD j d = l.getD j d := by
  induction l generalizing i j with
  | nil => simp
  | cons a t ih =>
    cases i with
    | zero => cases j with
      | zero => exact absurd rfl h
      | succ m => simp
    | succ n => cases j with
      | zero => simp
      | succ m =>
        simp only [List.set, List.getD_cons_succ]
        exact ih n m (by omega)

theorem set_getD_self {α : Type} (l : List α) (i : Nat) (d : α)
    (h : i < l.length) : l.set i (l.getD i d) = l := by
  induction l generalizing i with
  | nil => simp at h
  | cons a t ih =>
    cases i with
    | zero => simp
    | succ n =>
      simp only [List.getD_cons_succ, List.set]
      rw [ih n (by simpa using h)]

theorem length_row {b : Board} (h : WF b) {r : Nat} (hr : r < 9) :
    (b.getD r []).length = 9 := by
  obtain ⟨hl, hrows⟩ := h
  have hmem : b.getD r [] ∈ b := by
    have : r < b.length := by omega
    rw [List.getD_eq_getElem?_getD, List.getElem?_eq_getElem this]
    exact List.getElem_mem this
  exact hrows _ hmem

theorem WF_setCell {b : Board} (h : WF b) (r c v : Nat) : WF (setCell b r c v) := by
  obtain ⟨hl, hrows⟩ := h
  by_cases hr : r < b.length
  · refine ⟨by simp [setCell, hl], ?_⟩
    intro row hrow
    rcases List.mem_or_eq_of_mem_set hrow with hmem | heq
    · exact hrows _ hmem
    · subst heq
      simp only [List.length_set]
      exact length_row ⟨hl, hrows⟩ (by omega)
  · unfold setCell
    rw [List.set_eq_of_length_le (by omega)]
    exact ⟨hl, hrows⟩

theorem getCell_setCell_eq {b : Board} (h : WF b) {r c : Nat} (hr : r < 9)
    (hc : c < 9) (v : Nat) : getCell (setCell b r c v) r c = v := by
  unfold getCell setCell
  rw [getD_set_eq _ _ _ _ (show r < b.length by rw [h.1]; omega)]
  exact getD_set_eq _ _ _ _ (by rw [length_row h hr]; omega)

theorem getCell_setCell_ne {b : Board} {r c r' c' : Nat}
    (hne : (r', c') ≠ (r, c)) (v : Nat) :
    getCell (setCell b r c v) r' c' = getCell b r' c' := by
  unfold getCell setCell
  by_cases hr : r = r'
  · subst hr
    have hcc : c ≠ c' := by
      intro hcc; exact hne (by simp [hcc])
    by_cases hrl : r < b.length
    · rw [getD_set_eq _ _ _ _ hrl]
      exact getD_set_ne _ _ _ _ _ hcc
    · rw [List.set_eq_of_length_le (by omega)]
  · rw [getD_set_ne _ _ _ _ _ hr]

theorem setCell_setCell (b : Board) (r c v w : Nat) :
    setCell (setCell b r c v) r c w = setCell b r c w := by
  unfold setCell
  by_cases hrl : r < b.length
  · rw [getD_set_eq _ _ _ _ hrl, List.set_set, List.set_set]
  · simp only [List.set_eq_of_length_le (show b.length ≤ r by omega)]

theorem setCell_getCell_self {b : Board} (h : WF b) {r c : Nat} (hr : r < 9)
    (hc : c < 9) : setCell b r c (getCell b r c) = b := by
  unfold setCell getCell
  rw [set_getD_self (b.getD r []) c 0 (by rw [length_row h hr]; omega)]
  exact set_getD_self b r [] (show r < b.length by rw [h.1]; omega)

/-! ### Characterization of the constraint checker -/

/-- `isSafe` is true iff the value appears in no cell of the row, column, or
box of `(r, c)` — including `(r, c)` itself, which the source's scans do not
skip. -/
theorem isSafe_eq_true_iff (b : Board) (r c v : Nat) (hr : r < 9) (hc : c < 9) :
    isSafe b r c v = true ↔
      ∀ r', r' < 9 → ∀ c', c' < 9 → sameUnit r c r' c' → getCell b r' c' ≠ v := by
  unfold isSafe
  simp only [Bool.and_eq_true, List.all_eq_true, List.mem_range, bne_iff_ne, ne_eq]
  constructor
  · rintro ⟨⟨hrow, hcol⟩, hbox⟩ r' hr' c' hc' hu
    rcases hu with h1 | h2 | ⟨h3, h4⟩
    · subst h1; exact hrow c' hc'
    · subst h2; exact hcol r' hr'
    · have hb := hbox (r' - r / 3 * 3) (by omega) (c' - c / 3 * 3) (by omega)
      have e1 : r / 3 * 3 + (r' - r / 3 * 3) = r' := by omega
      have e2 : c / 3 * 3 + (c' - c / 3 * 3) = c' := by omega
      rw [e1, e2] at hb
      exact hb
  · intro h
    refine ⟨⟨fun j hj => h r hr j hj (Or.inl rfl),
      fun i hi => h i hi c hc (Or.inr (Or.inl rfl))⟩, ?_⟩
    intro i hi j hj
    exact h _ (by omega) _ (by omega) (Or.inr (Or.inr ⟨by omega, by omega⟩))

theorem sameUnit_symm {r c r' c' : Nat} (h : sameUnit r c r' c') :
    sameUnit r' c' r c := by
  unfold sameUnit at h ⊢; omega

/-! ### findEmpty and emptyCount -/

theorem findEmpty_eq_none_iff (b : Board) :
    findEmpty b = none ↔ ∀ r, r < 9 → ∀ c, c < 9 → getCell b r c ≠ 0 := by
  unfold findEmpty
  rw [Option.map_eq_none', List.find?_eq_none]
  constructor
  · intro h r hr c hc hz
    have := h (r * 9 + c) (by simp only [List.mem_range]; omega)
    have e1 : (r * 9 + c) / 9 = r := by omega
    have e2 : (r * 9 + c) % 9 = c := by omega
    rw [e1, e2] at this
    simp [hz] at this
  · intro h i hi
    simp only [List.mem_range] at hi
    simp only [beq_iff_eq]
    exact h (i / 9) (by omega) (i % 9) (by omega)

theorem findEmpty_some {b : Board} {r c : Nat} (h : findEmpty b = some (r, c)) :
    r < 9 ∧ c < 9 ∧ getCell b r c = 0 := by
  unfold findEmpty at h
  rw [Option.map_eq_some'] at h
  obtain ⟨i, hfind, heq⟩ := h
  have hmem := List.mem_of_find?_eq_some hfind
  simp only [List.mem_range] at hmem
  have hp := List.find?_some hfind
  simp only [beq_iff_eq] at hp
  rw [Prod.mk.injEq] at heq
  obtain ⟨h1, h2⟩ := heq
  subst h1; subst h2
  exact ⟨by omega, by omega, hp⟩

theorem emptyCount_le (b : Board) : emptyCount b ≤ 81 := by
  unfold emptyCount
  have hlen : (List.range 81).length = 81 := by simp
  rw [← hlen]
  exact List.countP_le_length _

theorem emptyCount_pos {b : Board} {r c : Nat} (hr : r < 9) (hc : c < 9)
    (hz : getCell b r c = 0) : 0 < emptyCount b := by
  unfold emptyCount
  rw [List.countP_pos_iff]
  refine ⟨r * 9 + c, by simp only [List.mem_range]; omega, ?_⟩
  have e1 : (r * 9 + c) / 9 = r := by omega
  have e2 : (r * 9 + c) % 9 = c := by omega
  rw [e1, e2]
  simp [hz]

theorem countP_split {l : List Nat} {p q : Nat → Bool} {i0 : Nat}
    (hmem : i0 ∈ l) (hnd : l.Nodup)
    (hagree : ∀ i ∈ l, i ≠ i0 → p i = q i)
    (hp : p i0 = true) (hq : q i0 = false) :
    l.countP q + 1 = l.countP p := by
  induction l with
  | nil => simp at hmem
  | cons a t ih =>
    rw [List.nodup_cons] at hnd
    rcases List.mem_cons.mp hmem with heq | hmem'
    · subst heq
      have hcongr : List.countP q t = List.countP p t := by
        apply List.countP_congr
        intro i hi
        have hne : i ≠ i0 := fun he => hnd.1 (he ▸ hi)
        rw [hagree i (List.mem_cons_of_mem _ hi) hne]
      rw [List.countP_cons, List.countP_cons, hp, hq, hcongr]
      simp
    · have hne : a ≠ i0 := fun he => hnd.1 (he ▸ hmem')
      have hih := ih hmem' hnd.2
        (fun i hi hne' => hagree i (List.mem_cons_of_mem _ hi) hne')
      rw [List.countP_cons, List.countP_cons,
        hagree a (List.mem_cons_self _ _) hne]
      omega

theorem emptyCount_setCell {b : Board} (h : WF b) {r c v : Nat} (hr : r < 9)
    (hc : c < 9) (hz : getCell b r c = 0) (hv : v ≠ 0) :
    emptyCount (setCell b r c v) + 1 = emptyCount b := by
  unfold emptyCount
  refine countP_split
    (show r * 9 + c ∈ List.range 81 by simp only [List.mem_range]; omega)
    (List.nodup_range 81) ?_ ?_ ?_
  · intro i hi hne
    simp only [List.mem_range] at hi
    have : (i / 9, i % 9) ≠ (r, c) := by
      intro he
      rw [Prod.mk.injEq] at he
      omega
    rw [getCell_setCell_ne this]
  · have e1 : (r * 9 + c) / 9 = r := by omega
    have e2 : (r * 9 + c) % 9 = c := by omega
    rw [e1, e2, hz]
    rfl
  · have e1 : (r * 9 + c) / 9 = r := by omega
    have e2 : (r * 9 + c) % 9 = c := by omega
    rw [e1, e2, getCell_setCell_eq h hr hc]
    simp [hv]

/-! ### The backtracking solver

The loop `for (d = 1; d <= 9; d++)` of `solveSudoku` is modelled by
recursion over the list of remaining candidate digits, with `f` standing
for the recursive call `solveSudoku` at the next depth.  The third result
component is ghost instrumentation: it records the working board after
every placement and after every undo, in chronological order, so that the
spec's "invariant holds at every step" can be stated.  `none` means the
fuel ran out. -/
def withTrace (b1 : Board) (t : List Board) (b3 : Board) :
    Option (Bool × Board × List Board) → Option (Bool × Board × List Board)
  | none => none
  | some (ok, b4, t2) => some (ok, b4, b1 :: (t ++ b3 :: t2))

/-- Dispatch on the result of the recursive solver call made after placing a
digit at `(r, c)` (board `b1`): on success propagate it; on failure undo the
placement (`board[r][c] = 0` applied to the returned board) and continue with
the remaining digits via `k`. -/
def branch (b1 : Board) (r c : Nat)
    (k : Board → Option (Bool × Board × List Board)) :
    Option (Bool × Board × List Board) → Option (Bool × Board × List Board)
  | none => none
  | some (true, b2, t) => some (true, b2, b1 :: t)
  | some (false, b2, t) => withTrace b1 t (setCell b2 r c 0) (k (setCell b2 r c 0))

def tryGo (f : Board → Option (Bool × Board × List Board)) (r c : Nat) :
    Board → List Nat → Option (Bool × Board × List Board)
  | b, [] => some (false, b, [])
  | b, d :: ds =>
    if isSafe b r c d then
      branch (setCell b r c d) r c (fun b3 => tryGo f r c b3 ds)
        (f (setCell b r c d))
    else tryGo f r c b ds

/-- Source `solveSudoku(board)`, with explicit fuel bounding the recursion
depth: find the first empty cell; if none, the board is solved; otherwise
try digits 1 through 9 in ascending order. -/
def solveF : Nat → Board → Option (Bool × Board × List Board)
  | 0, _ => none
  | n + 1, b =>
    match findEmpty b with
    | none => some (true, b, [])
    | some (r, c) => tryGo (solveF n) r c b (List.range' 1 9)

/-- Source `solveSudoku(board)` as the caller sees it: the success flag and
the board after the call.  Fuel `emptyCount b + 1` suffices (proved below). -/
def solveSudoku (b : Board) : Bool × Board :=
  match solveF (emptyCount b + 1) b with
  | some (ok, b', _) => (ok, b')
  | none => (false, b)

/-! ### Solver specification predicates -/

/-- Cells that differ between `b` and `b'` were empty in `b` and hold a
digit 1..9 in `b'`; in particular every non-zero cell of `b` is unchanged. -/
def onlyFills (b b' : Board) : Prop :=
  ∀ r, r < 9 → ∀ c, c < 9 → getCell b' r c ≠ getCell b r c →
    getCell b r c = 0 ∧ 1 ≤ getCell b' r c ∧ getCell b' r c ≤ 9

/-- Every cell that was empty in `b` and is filled in `b'` satisfies the
uniqueness constraint in `b'` relative to all other cells. -/
def placedOK (b b' : Board) : Prop :=
  ∀ r, r < 9 → ∀ c, c < 9 → getCell b r c = 0 → getCell b' r c ≠ 0 →
    noOther b' r c (getCell b' r c)

/-- Full specification of one solver call starting from board `b`. -/
def SolveSpec (b : Board) (res : Option (Bool × Board × List Board)) : Prop :=
  ∃ ok b' t, res = some (ok, b', t) ∧ WF b' ∧
    (ok = false → b' = b) ∧
    (validB b → validB b' ∧ ∀ x ∈ t, validB x) ∧
    (ok = true → findEmpty b' = none ∧ onlyFills b b' ∧ placedOK b b')

/-! ### Preservation lemmas for a single placement -/

theorem validB_setCell {b : Board} (h : WF b) {r c d : Nat} (hr : r < 9)
    (hc : c < 9) (hz : getCell b r c = 0) (hd : d ≠ 0)
    (hsafe : isSafe b r c d = true) (hv : validB b) :
    validB (setCell b r c d) := by
  have hchar := (isSafe_eq_true_iff b r c d hr hc).mp hsafe
  intro r0 hr0 c0 hc0 hnz r' hr' c' hc' hu hne
  by_cases h0 : (r0, c0) = (r, c)
  · rw [Prod.mk.injEq] at h0
    obtain ⟨e1, e2⟩ := h0; subst e1; subst e2
    rw [getCell_setCell_eq h hr hc] at hnz ⊢
    rw [getCell_setCell_ne hne]
    exact hchar r' hr' c' hc' hu
  · rw [getCell_setCell_ne h0] at hnz ⊢
    by_cases h1 : (r', c') = (r, c)
    · rw [Prod.mk.injEq] at h1
      obtain ⟨e1, e2⟩ := h1; subst e1; subst e2
      rw [getCell_setCell_eq h hr hc]
      have := hchar r0 hr0 c0 hc0 (sameUnit_symm hu)
      intro he; exact this he.symm
    · rw [getCell_setCell_ne h1]
      exact hv r0 hr0 c0 hc0 hnz r' hr' c' hc' hu hne

theorem onlyFills_setCell {b : Board} (h : WF b) {r c d : Nat} (hr : r < 9)
    (hc : c < 9) (hz : getCell b r c = 0) (hd1 : 1 ≤ d) (hd9 : d ≤ 9) :
    onlyFills b (setCell b r c d) := by
  intro r0 hr0 c0 hc0 hne
  by_cases h0 : (r0, c0) = (r, c)
  · rw [Prod.mk.injEq] at h0
    obtain ⟨e1, e2⟩ := h0; subst e1; subst e2
    rw [getCell_setCell_eq h hr hc]
    exact ⟨hz, hd1, hd9⟩
  · rw [getCell_setCell_ne h0] at hne
    exact absurd rfl hne

theorem onlyFills_rfl (b : Board) : onlyFills b b := by
  intro r0 hr0 c0 hc0 hne
  exact absurd rfl hne

theorem onlyFills_trans {b b1 b2 : Board} (h1 : onlyFills b b1)
    (h2 : onlyFills b1 b2) : onlyFills b b2 := by
  intro r0 hr0 c0 hc0 hne
  by_cases he : getCell b1 r0 c0 = getCell b r0 c0
  · rw [← he] at hne ⊢
    exact h2 r0 hr0 c0 hc0 hne
  · obtain ⟨hz, hlo, hhi⟩ := h1 r0 hr0 c0 hc0 he
    by_cases he2 : getCell b2 r0 c0 = getCell b1 r0 c0
    · rw [he2]
      exact ⟨hz, hlo, hhi⟩
    · obtain ⟨hz2, hlo2, hhi2⟩ := h2 r0 hr0 c0 hc0 he2
      omega

theorem placedOK_setCell {b b2 : Board} (h : WF b) {r c d : Nat} (hr : r < 9)
    (hc : c < 9) (hz : getCell b r c = 0) (hd : d ≠ 0)
    (hsafe : isSafe b r c d = true)
    (hof : onlyFills (setCell b r c d) b2)
    (hpo : placedOK (setCell b r c d) b2) : placedOK b b2 := by
  have hchar := (isSafe_eq_true_iff b r c d hr hc).mp hsafe
  have hb1 : getCell (setCell b r c d) r c = d := getCell_setCell_eq h hr hc d
  intro r0 hr0 c0 hc0 hz0 hnz0
  by_cases h0 : (r0, c0) = (r, c)
  · rw [Prod.mk.injEq] at h0
    obtain ⟨e1, e2⟩ := h0; subst e1; subst e2
    -- the cell the current level filled with d; it is unchanged in b2
    have hb2 : getCell b2 r0 c0 = d := by
      by_cases he : getCell b2 r0 c0 = getCell (setCell b r0 c0 d) r0 c0
      · rw [he, hb1]
      · obtain ⟨hz2, _, _⟩ := hof r0 hr0 c0 hc0 he
        rw [hb1] at hz2
        exact absurd hz2 hd
    rw [hb2]
    intro r' hr' c' hc' hu hne
    by_cases hb1' : getCell (setCell b r0 c0 d) r' c' ≠ 0
    -- the other cell was non-zero already after the placement
    · have he' : getCell b2 r' c' = getCell (setCell b r0 c0 d) r' c' := by
        by_cases he : getCell b2 r' c' = getCell (setCell b r0 c0 d) r' c'
        · exact he
        · obtain ⟨hz2, _, _⟩ := hof r' hr' c' hc' he
          exact absurd hz2 hb1'
      rw [he', getCell_setCell_ne hne]
      exact hchar r' hr' c' hc' hu
    · push_neg at hb1'
      by_cases hz' : getCell b2 r' c' = 0
      · rw [hz']
        intro he; exact hd he.symm
      · have := hpo r' hr' c' hc' hb1' hz' r0 hr0 c0 hc0
          (sameUnit_symm hu) (by intro he; exact hne (by rw [Prod.mk.injEq] at he ⊢; omega))
        rw [hb2] at this
        intro he; exact this he.symm
  · have hzb1 : getCell (setCell b r c d) r0 c0 = 0 := by
      rw [getCell_setCell_ne h0]; exact hz0
    exact hpo r0 hr0 c0 hc0 hzb1 hnz0

/-! ### The master invariant of the backtracking search -/

theorem tryGo_spec :
    ∀ (ds : List Nat) (f : Board → Option (Bool × Board × List Board))
      (b : Board) (r c : Nat),
      WF b → r < 9 → c < 9 → getCell b r c = 0 →
      (∀ d ∈ ds, 1 ≤ d ∧ d ≤ 9) →
      (∀ b', WF b' → emptyCount b' < emptyCount b → SolveSpec b' (f b')) →
      SolveSpec b (tryGo f r c b ds) := by
  intro ds
  induction ds with
  | nil =>
    intro f b r c hWF hr hc hz hds hf
    refine ⟨false, b, [], rfl, hWF, fun _ => rfl, fun hv => ⟨hv, by simp⟩, ?_⟩
    intro h; simp at h
  | cons d ds ih =>
    intro f b r c hWF hr hc hz hds hf
    simp only [tryGo]
    by_cases hsafe : isSafe b r c d = true
    · rw [if_pos hsafe]
      have hd1 : 1 ≤ d := (hds d (List.mem_cons_self _ _)).1
      have hd9 : d ≤ 9 := (hds d (List.mem_cons_self _ _)).2
      have hWF1 : WF (setCell b r c d) := WF_setCell hWF r c d
      have hcount : emptyCount (setCell b r c d) + 1 = emptyCount b :=
        emptyCount_setCell hWF hr hc hz (by omega)
      obtain ⟨ok2, b2, t2, heq2, hWF2, hfail2, hval2, hsucc2⟩ :=
        hf (setCell b r c d) hWF1 (by omega)
      rw [heq2]
      cases ok2 with
      | true =>
        simp only [branch]
        refine ⟨true, b2, setCell b r c d :: t2, rfl, hWF2, ?_, ?_, ?_⟩
        · intro h; simp at h
        · intro hv
          have hv1 : validB (setCell b r c d) :=
            validB_setCell hWF hr hc hz (by omega) hsafe hv
          obtain ⟨hvb2, hvt2⟩ := hval2 hv1
          refine ⟨hvb2, ?_⟩
          intro x hx
          rcases List.mem_cons.mp hx with h | h
          · subst h; exact hv1
          · exact hvt2 x h
        · intro _
          obtain ⟨hfe, hof, hpo⟩ := hsucc2 rfl
          exact ⟨hfe, onlyFills_trans (onlyFills_setCell hWF hr hc hz hd1 hd9) hof,
            placedOK_setCell hWF hr hc hz (by omega) hsafe hof hpo⟩
      | false =>
        have hb2 : b2 = setCell b r c d := hfail2 rfl
        subst hb2
        simp only [branch]
        have hb3 : setCell (setCell b r c d) r c 0 = b := by
          rw [setCell_setCell, ← hz, setCell_getCell_self hWF hr hc]
        rw [hb3]
        obtain ⟨ok4, b4, t4, heq4, hWF4, hfail4, hval4, hsucc4⟩ :=
          ih f b r c hWF hr hc hz
            (fun d' hd' => hds d' (List.mem_cons_of_mem _ hd')) hf
        rw [heq4]
        simp only [withTrace]
        refine ⟨ok4, b4, setCell b r c d :: (t2 ++ b :: t4), rfl, hWF4,
          hfail4, ?_, hsucc4⟩
        intro hv
        have hv1 : validB (setCell b r c d) :=
          validB_setCell hWF hr hc hz (by omega) hsafe hv
        obtain ⟨hvb2, hvt2⟩ := hval2 hv1
        obtain ⟨hvb4, hvt4⟩ := hval4 hv
        refine ⟨hvb4, ?_⟩
        intro x hx
        rcases List.mem_cons.mp hx with h | h
        · subst h; exact hv1
        · rcases List.mem_append.mp h with h' | h'
          · exact hvt2 x h'
          · rcases List.mem_cons.mp h' with h'' | h''
            · subst h''; exact hv
            · exact hvt4 x h''
    · rw [if_neg hsafe]
      exact ih f b r c hWF hr hc hz
        (fun d' hd' => hds d' (List.mem_cons_of_mem _ hd')) hf

theorem solveF_spec : ∀ (n : Nat) (b : Board), WF b → emptyCount b < n →
    SolveSpec b (solveF n b) := by
  intro n
  induction n with
  | zero =>
    intro b _ h
    omega
  | succ n ih =>
    intro b hWF hcount
    simp only [solveF]
    cases hfe : findEmpty b with
    | none =>
      refine ⟨true, b, [], rfl, hWF, ?_, fun hv => ⟨hv, by simp⟩, ?_⟩
      · intro h; simp at h
      · exact fun _ => ⟨hfe, onlyFills_rfl b, fun _ _ _ _ hz hnz => absurd hz hnz⟩
    | some rc =>
      obtain ⟨r, c⟩ := rc
      obtain ⟨hr, hc, hz⟩ := findEmpty_some hfe
      exact tryGo_spec (List.range' 1 9) (solveF n) b r c hWF hr hc hz
        (fun d hd => by simp only [List.mem_range'_1] at hd; omega)
        (fun b' hWF' hcount' => ih b' hWF' (by omega))

/-! ### Consequences for solveSudoku -/

theorem solveSudoku_spec (b : Board) (h : WF b) :
    ∃ ok b' t, solveF (emptyCount b + 1) b = some (ok, b', t) ∧
      solveSudoku b = (ok, b') ∧ WF b' ∧
      (ok = false → b' = b) ∧
      (validB b → validB b' ∧ ∀ x ∈ t, validB x) ∧
      (ok = true → findEmpty b' = none ∧ onlyFills b b' ∧ placedOK b b') := by
  obtain ⟨ok, b', t, heq, h1, h2, h3, h4⟩ :=
    solveF_spec (emptyCount b + 1) b h (by omega)
  refine ⟨ok, b', t, heq, ?_, h1, h2, h3, h4⟩
  unfold solveSudoku
  rw [heq]

/-- C2: starting from a well-formed board satisfying the uniqueness
invariant, the invariant holds of the working board at every step of the
backtracking search: after every placement, after every undo, and at the
final board. -/
theorem solver_maintains_invariant (b : Board) (h : WF b) (hv : validB b) :
    ∀ ok b' t, solveF (emptyCount b + 1) b = some (ok, b', t) →
      validB b' ∧ ∀ x ∈ t, validB x := by
  obtain ⟨ok0, b0, t0, heq, _, _, hval, _⟩ :=
    solveF_spec (emptyCount b + 1) b h (by omega)
  intro ok b' t heq2
  rw [heq] at heq2
  simp only [Option.some.injEq, Prod.mk.injEq] at heq2
  obtain ⟨e1, e2, e3⟩ := heq2
  subst e2; subst e3
  exact hval hv

/-- C4: on a full board (no zero cell) that is a valid completed Sudoku,
`solveSudoku` returns true and leaves the board unchanged. -/
theorem solve_solved_board_id (b : Board) (h : WF b)
    (hfull : ∀ r, r < 9 → ∀ c, c < 9 → getCell b r c ≠ 0)
    (hv : validB b) : solveSudoku b = (true, b) := by
  have hfe : findEmpty b = none := (findEmpty_eq_none_iff b).mpr hfull
  have hsf : solveF (emptyCount b + 1) b = some (true, b, []) := by
    simp only [solveF]
    rw [hfe]
  unfold solveSudoku
  rw [hsf]

/-- C8: the solver terminates within recursion depth `emptyCount b` below the
top-level call (fuel `emptyCount b + 1` never runs out), and the number of
empty cells is at most 81. -/
theorem solve_depth_bound (b : Board) (h : WF b)
    (hdig : ∀ r, r < 9 → ∀ c, c < 9 → getCell b r c ≤ 9) :
    (solveF (emptyCount b + 1) b).isSome = true ∧ emptyCount b ≤ 81 := by
  obtain ⟨ok, b', t, heq, _, _, _, _, _⟩ := solveSudoku_spec b h
  rw [heq]
  exact ⟨rfl, emptyCount_le b⟩

/-- C9: whenever `solveSudoku` reports failure, the board after the call is
exactly the board before the call: every tentative placement was undone. -/
theorem solve_failure_restores (b : Board) (h : WF b)
    (hfail : (solveSudoku b).1 = false) : (solveSudoku b).2 = b := by
  obtain ⟨ok, b', t, _, hss, _, hrest, _, _⟩ := solveSudoku_spec b h
  rw [hss] at hfail ⊢
  exact hrest hfail

/-- C10: whenever `solveSudoku` reports success, every cell that held a
non-zero digit in the input holds the same digit in the output: the solver
writes only to cells that were empty at the start of the call. -/
theorem solve_preserves_clues (b : Board) (h : WF b)
    (hok : (solveSudoku b).1 = true) :
    ∀ r, r < 9 → ∀ c, c < 9 → getCell b r c ≠ 0 →
      getCell (solveSudoku b).2 r c = getCell b r c := by
  obtain ⟨ok, b', t, _, hss, _, _, _, hsucc⟩ := solveSudoku_spec b h
  rw [hss] at hok ⊢
  obtain ⟨_, hof, _⟩ := hsucc hok
  intro r hr c hc hnz
  by_contra hne
  exact hnz (hof r hr c hc hne).1

/-! ### The validator

Source `validateBoard()`: scan all cells in row-major order; skip empty
cells; for a cell holding `v`, temporarily set it to 0, call `isSafe` with
`v`, flag the cell on failure, then restore `v`.  The threaded board models
the in-place mutation; the second component is the `valid` flag; the third
collects the flagged (conflicting) cells in scan order. -/
def validateStep (acc : Board × Bool × List (Nat × Nat)) (i : Nat) :
    Board × Bool × List (Nat × Nat) :=
  let b := acc.1
  let r := i / 9
  let c := i % 9
  let v := getCell b r c
  if v = 0 then acc
  else
    let b1 := setCell b r c 0
    let ok := isSafe b1 r c v
    (setCell b1 r c v, acc.2.1 && ok,
      if ok then acc.2.2 else acc.2.2 ++ [(r, c)])

def validateBoard (b : Board) : Board × Bool × List (Nat × Nat) :=
  (List.range 81).foldl validateStep (b, true, [])

/-- Whether the scan leaves cell `i` unflagged: the cell is empty, or its
value passes the blank-then-check test. -/
def cellOK (b : Board) (i : Nat) : Bool :=
  getCell b (i / 9) (i % 9) == 0 ||
    isSafe (setCell b (i / 9) (i % 9) 0) (i / 9) (i % 9) (getCell b (i / 9) (i % 9))

theorem validateStep_restore {b : Board} (h : WF b) {i : Nat} (hi : i < 81)
    (val : Bool) (confl : List (Nat × Nat)) :
    validateStep (b, val, confl) i =
      (b, val && cellOK b i,
        if cellOK b i then confl else confl ++ [(i / 9, i % 9)]) := by
  unfold validateStep cellOK
  by_cases hz : getCell b (i / 9) (i % 9) = 0
  · simp [hz]
  · have hrestore :
        setCell (setCell b (i / 9) (i % 9) 0) (i / 9) (i % 9)
          (getCell b (i / 9) (i % 9)) = b := by
      rw [setCell_setCell, setCell_getCell_self h (by omega) (by omega)]
    have hb0 : (getCell b (i / 9) (i % 9) == 0) = false :=
      beq_eq_false_iff_ne.mpr hz
    simp [if_neg hz, hrestore, hb0]

theorem validate_foldl (l : List Nat) :
    ∀ (b : Board) (val : Bool) (confl : List (Nat × Nat)), WF b →
      (∀ i ∈ l, i < 81) →
      l.foldl validateStep (b, val, confl) =
        (b, val && l.all (cellOK b),
          confl ++ (l.filter fun i => !cellOK b i).map fun i => (i / 9, i % 9)) := by
  induction l with
  | nil => intro b val confl _ _; simp
  | cons i l ih =>
    intro b val confl hWF hlt
    rw [List.foldl_cons,
      validateStep_restore hWF (hlt i (List.mem_cons_self _ _)) val confl,
      ih b _ _ hWF (fun j hj => hlt j (List.mem_cons_of_mem _ hj))]
    cases hok : cellOK b i
    · simp [List.all_cons, hok, Bool.and_assoc]
    · simp [List.all_cons, hok, Bool.and_assoc]

theorem validateBoard_eq (b : Board) (h : WF b) :
    validateBoard b =
      (b, (List.range 81).all (cellOK b),
        ((List.range 81).filter fun i => !cellOK b i).map fun i =>
          (i / 9, i % 9)) := by
  unfold validateBoard
  rw [validate_foldl (List.range 81) b true [] h
    (fun i hi => List.mem_range.mp hi)]
  simp

/-- C7: the validator has no observable effect on the board it examines
(every temporary blanking is restored), and running it twice on the same
board yields identical results. -/
theorem validate_no_side_effect (b : Board) (h : WF b) :
    (validateBoard b).1 = b ∧
      validateBoard ((validateBoard b).1) = validateBoard b := by
  have he := validateBoard_eq b h
  constructor
  · rw [he]
  · rw [he]
    exact he

theorem cellOK_true_of_zero {b : Board} {i : Nat}
    (hz : getCell b (i / 9) (i % 9) = 0) : cellOK b i = true := by
  unfold cellOK
  rw [hz]
  simp

/-- C6: on a board whose only non-zero cells are two equal digits in the same
row, the validator reports invalid and flags exactly those two cells. -/
theorem validate_flags_row_pair (b : Board) (h : WF b) (r c1 c2 d : Nat)
    (hr : r < 9) (hc1 : c1 < 9) (hc2 : c2 < 9) (hne : c1 ≠ c2)
    (hd1 : 1 ≤ d) (hd9 : d ≤ 9)
    (hv1 : getCell b r c1 = d) (hv2 : getCell b r c2 = d)
    (hrest : ∀ r', r' < 9 → ∀ c', c' < 9 → (r', c') ≠ (r, c1) →
      (r', c') ≠ (r, c2) → getCell b r' c' = 0) :
    (validateBoard b).2.1 = false ∧
      ∀ p, p ∈ (validateBoard b).2.2 ↔ p = (r, c1) ∨ p = (r, c2) := by
  have hpair1 : ((r : Nat), c2) ≠ (r, c1) := by
    intro he; rw [Prod.mk.injEq] at he; exact hne he.2.symm
  have hpair2 : ((r : Nat), c1) ≠ (r, c2) := by
    intro he; rw [Prod.mk.injEq] at he; exact hne he.2
  have hsafe1 : isSafe (setCell b r c1 0) r c1 d = false := by
    by_contra hT
    rw [Bool.not_eq_false] at hT
    have hx := (isSafe_eq_true_iff _ r c1 d hr hc1).mp hT r hr c2 hc2 (Or.inl rfl)
    apply hx
    rw [getCell_setCell_ne hpair1]
    exact hv2
  have hsafe2 : isSafe (setCell b r c2 0) r c2 d = false := by
    by_contra hT
    rw [Bool.not_eq_false] at hT
    have hx := (isSafe_eq_true_iff _ r c2 d hr hc2).mp hT r hr c1 hc1 (Or.inl rfl)
    apply hx
    rw [getCell_setCell_ne hpair2]
    exact hv1
  have hcell : ∀ i, i < 81 → (cellOK b i = false ↔ (i = r * 9 + c1 ∨ i = r * 9 + c2)) := by
    intro i hi
    constructor
    · intro hF
      by_contra hOr
      push_neg at hOr
      have hz : getCell b (i / 9) (i % 9) = 0 := by
        apply hrest (i / 9) (by omega) (i % 9) (by omega)
        · intro he; rw [Prod.mk.injEq] at he; omega
        · intro he; rw [Prod.mk.injEq] at he; omega
      rw [cellOK_true_of_zero hz] at hF
      exact nomatch hF
    · intro hOr
      rcases hOr with h1 | h1
      · subst h1
        have e1 : (r * 9 + c1) / 9 = r := by omega
        have e2 : (r * 9 + c1) % 9 = c1 := by omega
        unfold cellOK
        rw [e1, e2, hv1, hsafe1, beq_eq_false_iff_ne.mpr (show d ≠ 0 by omega)]
        rfl
      · subst h1
        have e1 : (r * 9 + c2) / 9 = r := by omega
        have e2 : (r * 9 + c2) % 9 = c2 := by omega
        unfold cellOK
        rw [e1, e2, hv2, hsafe2, beq_eq_false_iff_ne.mpr (show d ≠ 0 by omega)]
        rfl
  rw [validateBoard_eq b h]
  constructor
  · rw [Bool.eq_false_iff]
    intro hall
    have hc := List.all_eq_true.mp hall (r * 9 + c1)
      (List.mem_range.mpr (by omega))
    rw [(hcell (r * 9 + c1) (by omega)).mpr (Or.inl rfl)] at hc
    exact nomatch hc
  · intro p
    simp only [List.mem_map, List.mem_filter, List.mem_range,
      Bool.not_eq_eq_eq_not, Bool.not_true]
    constructor
    · rintro ⟨i, ⟨hi, hF⟩, hfp⟩
      rcases (hcell i hi).mp hF with h1 | h1
      · left
        rw [← hfp, h1, Prod.mk.injEq]
        omega
      · right
        rw [← hfp, h1, Prod.mk.injEq]
        omega
    · rintro (h1 | h1)
      · refine ⟨r * 9 + c1, ⟨by omega, (hcell _ (by omega)).mpr (Or.inl rfl)⟩, ?_⟩
        rw [h1, Prod.mk.injEq]
        omega
      · refine ⟨r * 9 + c2, ⟨by omega, (hcell _ (by omega)).mpr (Or.inr rfl)⟩, ?_⟩
        rw [h1, Prod.mk.injEq]
        omega

/-! ### Completeness of the exhaustive search -/

/-- Every non-zero cell of `b` agrees with `bs`. -/
def extendsB (b bs : Board) : Prop :=
  ∀ r, r < 9 → ∀ c, c < 9 → getCell b r c ≠ 0 → getCell bs r c = getCell b r c

instance (b bs : Board) : Decidable (extendsB b bs) := by
  unfold extendsB; infer_instance

/-- `bs` is a fully solved grid: well-formed, conflict-free, digits 1..9. -/
def solution (bs : Board) : Prop :=
  WF bs ∧ validB bs ∧
    ∀ r, r < 9 → ∀ c, c < 9 → 1 ≤ getCell bs r c ∧ getCell bs r c ≤ 9

instance (bs : Board) : Decidable (solution bs) := by
  unfold solution; infer_instance

theorem extendsB_setCell {b bs : Board} {r c : Nat} (hr : r < 9) (hc : c < 9)
    (hWF : WF b) (hx : extendsB b bs) (hval : getCell bs r c = d) :
    extendsB (setCell b r c d) bs := by
  intro r' hr' c' hc' hnz
  by_cases hp : (r', c') = (r, c)
  · rw [Prod.mk.injEq] at hp
    obtain ⟨e1, e2⟩ := hp; subst e1; subst e2
    rw [getCell_setCell_eq hWF hr hc]
    exact hval
  · rw [getCell_setCell_ne hp] at hnz ⊢
    exact hx r' hr' c' hc' hnz

theorem isSafe_of_solution {b bs : Board} {r c : Nat} (hr : r < 9) (hc : c < 9)
    (hz : getCell b r c = 0) (hsol : solution bs) (hx : extendsB b bs) :
    isSafe b r c (getCell bs r c) = true := by
  obtain ⟨hWFs, hvs, hrange⟩ := hsol
  rw [isSafe_eq_true_iff b r c _ hr hc]
  intro r' hr' c' hc' hu he
  have hds : 1 ≤ getCell bs r c := (hrange r hr c hc).1
  have hnz : getCell b r' c' ≠ 0 := by omega
  have hagree : getCell bs r' c' = getCell b r' c' := hx r' hr' c' hc' hnz
  have hne : (r, c) ≠ (r', c') := by
    intro hp
    rw [Prod.mk.injEq] at hp
    obtain ⟨e1, e2⟩ := hp; subst e1; subst e2
    omega
  have := hvs r' hr' c' hc' (by omega) r hr c hc (sameUnit_symm hu) hne
  rw [hagree, he] at this
  exact this rfl

theorem tryGo_complete :
    ∀ (ds : List Nat) (f : Board → Option (Bool × Board × List Board))
      (b bs : Board) (r c : Nat),
      WF b → r < 9 → c < 9 → getCell b r c = 0 →
      solution bs → extendsB b bs → getCell bs r c ∈ ds →
      (∀ b', WF b' → emptyCount b' < emptyCount b → SolveSpec b' (f b')) →
      (∀ b', WF b' → emptyCount b' < emptyCount b → extendsB b' bs →
        ∃ b2 t, f b' = some (true, b2, t)) →
      ∃ b2 t, tryGo f r c b ds = some (true, b2, t) := by
  intro ds
  induction ds with
  | nil =>
    intro f b bs r c _ _ _ _ _ _ hmem _ _
    exact absurd hmem (List.not_mem_nil _)
  | cons d ds ih =>
    intro f b bs r c hWF hr hc hz hsol hx hmem hf hcompl
    have hWF1 : WF (setCell b r c d) := WF_setCell hWF r c d
    simp only [tryGo]
    by_cases hsafe : isSafe b r c d = true
    · rw [if_pos hsafe]
      have hd0 : d ≠ 0 := by
        intro he
        subst he
        have := (isSafe_eq_true_iff b r c 0 hr hc).mp hsafe r hr c hc
          (Or.inl rfl)
        exact this hz
      have hcount : emptyCount (setCell b r c d) + 1 = emptyCount b :=
        emptyCount_setCell hWF hr hc hz hd0
      obtain ⟨ok2, b2, t2, heq2, hWF2, hfail2, hval2, hsucc2⟩ :=
        hf (setCell b r c d) hWF1 (by omega)
      rw [heq2]
      cases ok2 with
      | true =>
        simp only [branch]
        exact ⟨b2, setCell b r c d :: t2, rfl⟩
      | false =>
        have hb2 : b2 = setCell b r c d := hfail2 rfl
        subst hb2
        simp only [branch]
        have hb3 : setCell (setCell b r c d) r c 0 = b := by
          rw [setCell_setCell, ← hz, setCell_getCell_self hWF hr hc]
        rw [hb3]
        have hdne : getCell bs r c ≠ d := by
          intro he
          obtain ⟨b3, t3, heq3⟩ := hcompl (setCell b r c d) hWF1 (by omega)
            (extendsB_setCell hr hc hWF hx he)
          rw [heq3] at heq2
          exact nomatch heq2
        have hmem' : getCell bs r c ∈ ds := by
          rcases List.mem_cons.mp hmem with h1 | h1
          · exact absurd h1 hdne
          · exact h1
        obtain ⟨b4, t4, heq4⟩ := ih f b bs r c hWF hr hc hz hsol hx hmem' hf hcompl
        rw [heq4]
        simp only [withTrace]
        exact ⟨b4, setCell b r c d :: (t2 ++ b :: t4), rfl⟩
    · rw [if_neg hsafe]
      have hdne : getCell bs r c ≠ d := by
        intro he
        rw [← he] at hsafe
        exact hsafe (isSafe_of_solution hr hc hz hsol hx)
      have hmem' : getCell bs r c ∈ ds := by
        rcases List.mem_cons.mp hmem with h1 | h1
        · exact absurd h1 hdne
        · exact h1
      exact ih f b bs r c hWF hr hc hz hsol hx hmem' hf hcompl

theorem solveF_complete : ∀ (n : Nat) (b bs : Board), WF b →
    emptyCount b < n → solution bs → extendsB b bs →
    ∃ b' t, solveF n b = some (true, b', t) := by
  intro n
  induction n with
  | zero =>
    intro b bs _ h _ _
    omega
  | succ n ih =>
    intro b bs hWF hcount hsol hx
    simp only [solveF]
    cases hfe : findEmpty b with
    | none => exact ⟨b, [], rfl⟩
    | some rc =>
      obtain ⟨r, c⟩ := rc
      obtain ⟨hr, hc, hz⟩ := findEmpty_some hfe
      apply tryGo_complete (List.range' 1 9) (solveF n) b bs r c hWF hr hc hz
        hsol hx
      · rw [List.mem_range'_1]
        have := (hsol.2.2) r hr c hc
        omega
      · exact fun b' hWF' hcount' => solveF_spec n b' hWF' (by omega)
      · exact fun b' hWF' hcount' hx' => ih b' bs hWF' (by omega) hsol hx'

/-! ### Rows, columns and boxes of a solved board -/

/-- The digits of row `r`, in column order. -/
def rowList (b : Board) (r : Nat) : List Nat :=
  (List.range 9).map fun c => getCell b r c

/-- The digits of column `c`, in row order. -/
def colList (b : Board) (c : Nat) : List Nat :=
  (List.range 9).map fun r => getCell b r c

/-- The digits of the `k`-th 3x3 box (`k < 9`), in row-major order. -/
def boxList (b : Board) (k : Nat) : List Nat :=
  (List.range 9).map fun j => getCell b (k / 3 * 3 + j / 3) (k % 3 * 3 + j % 3)

/-- A list of nine pairwise-distinct digits drawn from 1..9 is a permutation
of 1..9. -/
theorem perm_digits {l : List Nat} (hlen : l.length = 9) (hnd : l.Nodup)
    (hmem : ∀ x ∈ l, 1 ≤ x ∧ x ≤ 9) : l.Perm (List.range' 1 9) := by
  apply List.perm_of_nodup_nodup_toFinset_eq hnd (by decide)
  have hsub : l.toFinset ⊆ (List.range' 1 9).toFinset := by
    intro x hx
    rw [List.mem_toFinset] at hx ⊢
    rw [List.mem_range'_1]
    have := hmem x hx
    omega
  have h1 : (List.range' 1 9).toFinset.card = 9 := by decide
  have h2 : l.toFinset.card = 9 := by
    rw [List.toFinset_card_of_nodup hnd, hlen]
  exact Finset.eq_of_subset_of_card_le hsub (by omega)

theorem solved_rows_perm {b : Board} (hv : validB b)
    (hcomp : ∀ r, r < 9 → ∀ c, c < 9 → getCell b r c ≠ 0)
    (hle : ∀ r, r < 9 → ∀ c, c < 9 → getCell b r c ≤ 9) :
    ∀ r, r < 9 → (rowList b r).Perm (List.range' 1 9) := by
  intro r hr
  refine perm_digits (by simp [rowList]) ?_ ?_
  · refine List.Nodup.map_on ?_ (List.nodup_range 9)
    intro c1 hc1 c2 hc2 hfeq
    simp only [List.mem_range] at hc1 hc2
    by_contra hne
    exact hv r hr c1 hc1 (hcomp r hr c1 hc1) r hr c2 hc2 (Or.inl rfl)
      (by intro hp; rw [Prod.mk.injEq] at hp; exact hne hp.2.symm) hfeq.symm
  · intro x hx
    simp only [rowList, List.mem_map, List.mem_range] at hx
    obtain ⟨c, hc, he⟩ := hx
    have h1 := hcomp r hr c hc
    have h2 := hle r hr c hc
    omega

theorem solved_cols_perm {b : Board} (hv : validB b)
    (hcomp : ∀ r, r < 9 → ∀ c, c < 9 → getCell b r c ≠ 0)
    (hle : ∀ r, r < 9 → ∀ c, c < 9 → getCell b r c ≤ 9) :
    ∀ c, c < 9 → (colList b c).Perm (List.range' 1 9) := by
  intro c hc
  refine perm_digits (by simp [colList]) ?_ ?_
  · refine List.Nodup.map_on ?_ (List.nodup_range 9)
    intro r1 hr1 r2 hr2 hfeq
    simp only [List.mem_range] at hr1 hr2
    by_contra hne
    exact hv r1 hr1 c hc (hcomp r1 hr1 c hc) r2 hr2 c hc (Or.inr (Or.inl rfl))
      (by intro hp; rw [Prod.mk.injEq] at hp; exact hne hp.1.symm) hfeq.symm
  · intro x hx
    simp only [colList, List.mem_map, List.mem_range] at hx
    obtain ⟨r, hr, he⟩ := hx
    have h1 := hcomp r hr c hc
    have h2 := hle r hr c hc
    omega

theorem solved_boxes_perm {b : Board} (hv : validB b)
    (hcomp : ∀ r, r < 9 → ∀ c, c < 9 → getCell b r c ≠ 0)
    (hle : ∀ r, r < 9 → ∀ c, c < 9 → getCell b r c ≤ 9) :
    ∀ k, k < 9 → (boxList b k).Perm (List.range' 1 9) := by
  intro k hk
  refine perm_digits (by simp [boxList]) ?_ ?_
  · refine List.Nodup.map_on ?_ (List.nodup_range 9)
    intro j1 hj1 j2 hj2 hfeq
    simp only [List.mem_range] at hj1 hj2
    by_contra hne
    have hr1 : k / 3 * 3 + j1 / 3 < 9 := by omega
    have hc1 : k % 3 * 3 + j1 % 3 < 9 := by omega
    have hr2 : k / 3 * 3 + j2 / 3 < 9 := by omega
    have hc2 : k % 3 * 3 + j2 % 3 < 9 := by omega
    refine hv _ hr1 _ hc1 (hcomp _ hr1 _ hc1) _ hr2 _ hc2
      (Or.inr (Or.inr ⟨by omega, by omega⟩))
      (by intro hp; rw [Prod.mk.injEq] at hp; omega) hfeq.symm
  · intro x hx
    simp only [boxList, List.mem_map, List.mem_range] at hx
    obtain ⟨j, hj, he⟩ := hx
    have hr1 : k / 3 * 3 + j / 3 < 9 := by omega
    have hc1 : k % 3 * 3 + j % 3 < 9 := by omega
    have h1 := hcomp _ hr1 _ hc1
    have h2 := hle _ hr1 _ hc1
    omega

/-! ### The preset puzzle -/

/-- Source `loadPuzzle(str)`: the value contributed by one character of an
81-character puzzle string (`.` or `0` = empty, otherwise the digit). -/
def charVal (ch : Char) : Nat := if ch = '.' ∨ ch = '0' then 0 else ch.toNat - 48

/-- Parse an 81-character puzzle string into a 9x9 board in row-major order
(cell `(r, c)` comes from character `r * 9 + c`), as `loadPuzzle` does. -/
def parsePuzzle (s : String) : Board :=
  (List.range 9).map fun r => (List.range 9).map fun c =>
    charVal (s.data.getD (r * 9 + c) '0')

/-- The first preset of `PUZZLES` in the source. -/
def puzzle1 : Board := parsePuzzle
  "530070000600195000098000060800060003400803001700020006060000280000419005000080079"

/-- A completed grid extending `puzzle1` (exhibited, then checked by
`decide`); used to show the search must succeed. -/
def solution1 : Board := parsePuzzle
  "534678912672195348198342567859761423426853791713924856961537284287419635345286179"

/-- C3: solving the first preset puzzle terminates with `true`, and in the
resulting board every row, every column and every 3x3 box is a permutation
of the digits 1..9. -/
theorem solve_preset_puzzle :
    (solveSudoku puzzle1).1 = true ∧
      (∀ r, r < 9 → (rowList (solveSudoku puzzle1).2 r).Perm (List.range' 1 9)) ∧
      (∀ c, c < 9 → (colList (solveSudoku puzzle1).2 c).Perm (List.range' 1 9)) ∧
      (∀ k, k < 9 → (boxList (solveSudoku puzzle1).2 k).Perm (List.range' 1 9)) := by
  have hWF : WF puzzle1 := by decide
  have hval : validB puzzle1 := by decide
  have hple : ∀ r, r < 9 → ∀ c, c < 9 → getCell puzzle1 r c ≤ 9 := by decide
  have hsol : solution solution1 := by
    refine ⟨by decide, by decide, by decide⟩
  have hx : extendsB puzzle1 solution1 := by decide
  obtain ⟨b2, t2, heqc⟩ := solveF_complete (emptyCount puzzle1 + 1) puzzle1
    solution1 hWF (by omega) hsol hx
  obtain ⟨ok, b', t, heq, hss, hWF', hrest, hvalp, hsucc⟩ :=
    solveSudoku_spec puzzle1 hWF
  rw [heq] at heqc
  simp only [Option.some.injEq, Prod.mk.injEq] at heqc
  obtain ⟨hok, hb, ht⟩ := heqc
  subst hok
  obtain ⟨hfe, hof, hpo⟩ := hsucc rfl
  have hcomp : ∀ r, r < 9 → ∀ c, c < 9 → getCell b' r c ≠ 0 :=
    (findEmpty_eq_none_iff b').mp hfe
  have hvb' : validB b' := (hvalp hval).1
  have hle' : ∀ r, r < 9 → ∀ c, c < 9 → getCell b' r c ≤ 9 := by
    intro r hr c hc
    by_cases he : getCell b' r c = getCell puzzle1 r c
    · rw [he]; exact hple r hr c hc
    · exact (hof r hr c hc he).2.2
  rw [hss]
  exact ⟨rfl, solved_rows_perm hvb' hcomp hle',
    solved_cols_perm hvb' hcomp hle', solved_boxes_perm hvb' hcomp hle'⟩

/-! ### Unsolvability of a board with a duplicated digit in one row -/

/-- C5: on a board whose only non-zero cells are two equal digits `d` in the
same row, `solveSudoku` returns false.  (If the search succeeded, each of the
eight other rows would contain `d`, all in pairwise different columns avoiding
the two clue columns — an injection of 8 rows into 7 columns.) -/
theorem solve_row_duplicate_false (b : Board) (h : WF b) (r c1 c2 d : Nat)
    (hr : r < 9) (hc1 : c1 < 9) (hc2 : c2 < 9) (hne : c1 ≠ c2)
    (hd1 : 1 ≤ d) (hd9 : d ≤ 9)
    (hv1 : getCell b r c1 = d) (hv2 : getCell b r c2 = d)
    (hrest : ∀ r', r' < 9 → ∀ c', c' < 9 → (r', c') ≠ (r, c1) →
      (r', c') ≠ (r, c2) → getCell b r' c' = 0) :
    (solveSudoku b).1 = false := by
  by_contra hT
  rw [Bool.not_eq_false] at hT
  obtain ⟨ok, b', t, heq, hss, hWF', hrestore, hvalp, hsucc⟩ := solveSudoku_spec b h
  rw [hss] at hT
  obtain ⟨hfe, hof, hpo⟩ := hsucc hT
  have hcompb' : ∀ i, i < 9 → ∀ j, j < 9 → getCell b' i j ≠ 0 :=
    (findEmpty_eq_none_iff b').mp hfe
  have hble : ∀ i, i < 9 → ∀ j, j < 9 → getCell b i j ≤ 9 := by
    intro i hi j hj
    by_cases hp1 : ((i : Nat), (j : Nat)) = (r, c1)
    · rw [Prod.mk.injEq] at hp1
      obtain ⟨e1, e2⟩ := hp1; subst e1; subst e2
      omega
    · by_cases hp2 : ((i : Nat), (j : Nat)) = (r, c2)
      · rw [Prod.mk.injEq] at hp2
        obtain ⟨e1, e2⟩ := hp2; subst e1; subst e2
        omega
      · rw [hrest i hi j hj hp1 hp2]
        omega
  have hallle : ∀ i, i < 9 → ∀ j, j < 9 → getCell b' i j ≤ 9 := by
    intro i hi j hj
    by_cases he : getCell b' i j = getCell b i j
    · rw [he]; exact hble i hi j hj
    · exact (hof i hi j hj he).2.2
  have hkeep1 : getCell b' r c1 = d := by
    by_cases he : getCell b' r c1 = getCell b r c1
    · rw [he, hv1]
    · have := (hof r hr c1 hc1 he).1
      omega
  have hkeep2 : getCell b' r c2 = d := by
    by_cases he : getCell b' r c2 = getCell b r c2
    · rw [he, hv2]
    · have := (hof r hr c2 hc2 he).1
      omega
  -- at most one occurrence of d in each column of the solved board
  have hcol : ∀ j, j < 9 → ∀ i1 i2, i1 < 9 → i2 < 9 → i1 ≠ i2 →
      getCell b' i1 j = d → getCell b' i2 j = d → False := by
    intro j hj i1 i2 hi1 hi2 hii hd1' hd2'
    by_cases hclue1 : ((i1 : Nat), (j : Nat)) = (r, c1) ∨ ((i1 : Nat), (j : Nat)) = (r, c2)
    · -- i1 is a clue cell, hence i1 = r and i2 is not in row r
      have hi1r : i1 = r := by
        rcases hclue1 with hp | hp <;> (rw [Prod.mk.injEq] at hp; exact hp.1)
      have hz2 : getCell b i2 j = 0 := by
        apply hrest i2 hi2 j hj
        · intro hp; rw [Prod.mk.injEq] at hp; omega
        · intro hp; rw [Prod.mk.injEq] at hp; omega
      have hno := hpo i2 hi2 j hj hz2 (hcompb' i2 hi2 j hj)
      rw [hd2'] at hno
      exact hno i1 hi1 j hj (Or.inr (Or.inl rfl))
        (by intro hp; rw [Prod.mk.injEq] at hp; omega) hd1'
    · push_neg at hclue1
      have hz1 : getCell b i1 j = 0 := hrest i1 hi1 j hj hclue1.1 hclue1.2
      have hno := hpo i1 hi1 j hj hz1 (hcompb' i1 hi1 j hj)
      rw [hd1'] at hno
      exact hno i2 hi2 j hj (Or.inr (Or.inl rfl))
        (by intro hp; rw [Prod.mk.injEq] at hp; omega) hd2'
  -- every row other than r contains d somewhere
  have hrow : ∀ i, i < 9 → i ≠ r → ∃ j, j < 9 ∧ getCell b' i j = d := by
    intro i hi hir
    have hperm : (rowList b' i).Perm (List.range' 1 9) := by
      refine perm_digits (by simp [rowList]) ?_ ?_
      · refine List.Nodup.map_on ?_ (List.nodup_range 9)
        intro j1 hj1 j2 hj2 hfeq
        simp only [List.mem_range] at hj1 hj2
        by_contra hjne
        have hz1 : getCell b i j1 = 0 := by
          apply hrest i hi j1 hj1
          · intro hp; rw [Prod.mk.injEq] at hp; exact hir hp.1
          · intro hp; rw [Prod.mk.injEq] at hp; exact hir hp.1
        exact hpo i hi j1 hj1 hz1 (hcompb' i hi j1 hj1) i hi j2 hj2
          (Or.inl rfl)
          (by intro hp; rw [Prod.mk.injEq] at hp; exact hjne hp.2.symm)
          hfeq.symm
      · intro x hx
        simp only [rowList, List.mem_map, List.mem_range] at hx
        obtain ⟨j, hj, he⟩ := hx
        have h1 := hcompb' i hi j hj
        have h2 := hallle i hi j hj
        omega
    have hd_mem : d ∈ rowList b' i :=
      hperm.mem_iff.mpr (by rw [List.mem_range'_1]; omega)
    simp only [rowList, List.mem_map, List.mem_range] at hd_mem
    obtain ⟨j, hj, he⟩ := hd_mem
    exact ⟨j, hj, he⟩
  -- choose, for each row other than r, a column holding d
  have hex : ∀ i, ∃ j, i < 9 → i ≠ r → j < 9 ∧ getCell b' i j = d := by
    intro i
    by_cases hi : i < 9 ∧ i ≠ r
    · obtain ⟨j, hj⟩ := hrow i hi.1 hi.2
      exact ⟨j, fun _ _ => hj⟩
    · exact ⟨0, fun h1 h2 => absurd ⟨h1, h2⟩ hi⟩
  choose g hg using hex
  have hmaps : ∀ i ∈ (Finset.range 9).erase r,
      g i ∈ ((Finset.range 9).erase c1).erase c2 := by
    intro i hi
    rw [Finset.mem_erase, Finset.mem_range] at hi
    obtain ⟨hgj, hgd⟩ := hg i hi.2 hi.1
    rw [Finset.mem_erase, Finset.mem_erase, Finset.mem_range]
    refine ⟨?_, ?_, hgj⟩
    · intro he
      exact hcol (g i) hgj i r hi.2 hr hi.1 hgd (by rw [he] at hgd ⊢; exact hkeep2)
    · intro he
      exact hcol (g i) hgj i r hi.2 hr hi.1 hgd (by rw [he] at hgd ⊢; exact hkeep1)
  have hinj : Set.InjOn g ((Finset.range 9).erase r) := by
    intro i1 h1 i2 h2 hgeq
    rw [Finset.mem_coe, Finset.mem_erase, Finset.mem_range] at h1 h2
    by_contra hii
    obtain ⟨hgj1, hgd1⟩ := hg i1 h1.2 h1.1
    obtain ⟨hgj2, hgd2⟩ := hg i2 h2.2 h2.1
    rw [hgeq] at hgd1
    exact hcol (g i2) hgj2 i1 i2 h1.2 h2.2 hii hgd1 hgd2
  have hcard := Finset.card_le_card_of_injOn g hmaps hinj
  rw [Finset.card_erase_of_mem (Finset.mem_range.mpr hr),
    Finset.card_erase_of_mem
      (Finset.mem_erase.mpr ⟨fun he => hne he.symm, Finset.mem_range.mpr hc2⟩),
    Finset.card_erase_of_mem (Finset.mem_range.mpr hc1),
    Finset.card_range] at hcard
  omega

/-! ### The self-inspection behavior of isSafe (claim C1) -/

/-- C1 (amended): `isSafe(B,r,c,d)` returns false iff `d` appears in some
cell — including possibly `(r, c)` itself — in row `r`, column `c`, or the
3x3 box containing `(r, c)`: the source's scans do not skip the cell being
checked, so the value currently stored at `(r, c)` is inspected. -/
theorem isSafe_false_iff (b : Board) (r c v : Nat) (hr : r < 9) (hc : c < 9) :
    isSafe b r c v = false ↔
      ∃ r', r' < 9 ∧ ∃ c', c' < 9 ∧ sameUnit r c r' c' ∧ getCell b r' c' = v := by
  rw [← Bool.not_eq_true, isSafe_eq_true_iff b r c v hr hc]
  push_neg
  rfl

/-- Board holding a single 5 at `(0, 0)` and empty everywhere else. -/
def selfBoard : Board :=
  [[5, 0, 0, 0, 0, 0, 0, 0, 0],
   [0, 0, 0, 0, 0, 0, 0, 0, 0],
   [0, 0, 0, 0, 0, 0, 0, 0, 0],
   [0, 0, 0, 0, 0, 0, 0, 0, 0],
   [0, 0, 0, 0, 0, 0, 0, 0, 0],
   [0, 0, 0, 0, 0, 0, 0, 0, 0],
   [0, 0, 0, 0, 0, 0, 0, 0, 0],
   [0, 0, 0, 0, 0, 0, 0, 0, 0],
   [0, 0, 0, 0, 0, 0, 0, 0, 0]]

/-- C1 counterexample: with a 5 stored at `(0, 0)` and nowhere else,
`isSafe` at `(0, 0)` for digit 5 returns false even though 5 appears in no
cell other than `(0, 0)` itself — so `isSafe` does inspect the cell at the
queried coordinates, contrary to the claim. -/
theorem isSafe_self_cex :
    isSafe selfBoard 0 0 5 = false ∧ noOther selfBoard 0 0 5 := by decide

theorem isSafe_false_iff_witness :
    (0 : Nat) < 9 ∧ (0 : Nat) < 9 ∧
      (isSafe selfBoard 0 0 5 = false ↔
        ∃ r', r' < 9 ∧ ∃ c', c' < 9 ∧ sameUnit 0 0 r' c' ∧
          getCell selfBoard r' c' = 5) :=
  ⟨by decide, by decide, isSafe_false_iff selfBoard 0 0 5 (by decide) (by decide)⟩

/-! ### Concrete boards for the remaining witnesses -/

/-- Board with two 1s in row 0 and empty everywhere else. -/
def dupBoard : Board :=
  [[1, 1, 0, 0, 0, 0, 0, 0, 0],
   [0, 0, 0, 0, 0, 0, 0, 0, 0],
   [0, 0, 0, 0, 0, 0, 0, 0, 0],
   [0, 0, 0, 0, 0, 0, 0, 0, 0],
   [0, 0, 0, 0, 0, 0, 0, 0, 0],
   [0, 0, 0, 0, 0, 0, 0, 0, 0],
   [0, 0, 0, 0, 0, 0, 0, 0, 0],
   [0, 0, 0, 0, 0, 0, 0, 0, 0],
   [0, 0, 0, 0, 0, 0, 0, 0, 0]]

/-- The solved grid `solution1` with cell `(0, 2)` blanked: one empty cell,
solvable in one placement. -/
def nearBoard : Board :=
  [[5, 3, 0, 6, 7, 8, 9, 1, 2],
   [6, 7, 2, 1, 9, 5, 3, 4, 8],
   [1, 9, 8, 3, 4, 2, 5, 6, 7],
   [8, 5, 9, 7, 6, 1, 4, 2, 3],
   [4, 2, 6, 8, 5, 3, 7, 9, 1],
   [7, 1, 3, 9, 2, 4, 8, 5, 6],
   [9, 6, 1, 5, 3, 7, 2, 8, 4],
   [2, 8, 7, 4, 1, 9, 6, 3, 5],
   [3, 4, 5, 2, 8, 6, 1, 7, 9]]

/-- `nearBoard` with `(5, 2)` changed from 3 to 4: the single empty cell
`(0, 2)` now admits no digit, so the search fails immediately. -/
def failBoard : Board :=
  [[5, 3, 0, 6, 7, 8, 9, 1, 2],
   [6, 7, 2, 1, 9, 5, 3, 4, 8],
   [1, 9, 8, 3, 4, 2, 5, 6, 7],
   [8, 5, 9, 7, 6, 1, 4, 2, 3],
   [4, 2, 6, 8, 5, 3, 7, 9, 1],
   [7, 1, 4, 9, 2, 4, 8, 5, 6],
   [9, 6, 1, 5, 3, 7, 2, 8, 4],
   [2, 8, 7, 4, 1, 9, 6, 3, 5],
   [3, 4, 5, 2, 8, 6, 1, 7, 9]]

theorem solver_maintains_invariant_witness :
    WF puzzle1 ∧ validB puzzle1 ∧
      ∀ ok b' t, solveF (emptyCount puzzle1 + 1) puzzle1 = some (ok, b', t) →
        validB b' ∧ ∀ x ∈ t, validB x :=
  ⟨by decide, by decide, solver_maintains_invariant puzzle1 (by decide) (by decide)⟩

theorem solve_solved_board_id_witness :
    WF solution1 ∧ (∀ r, r < 9 → ∀ c, c < 9 → getCell solution1 r c ≠ 0) ∧
      validB solution1 ∧ solveSudoku solution1 = (true, solution1) :=
  ⟨by decide, by decide, by decide,
    solve_solved_board_id solution1 (by decide) (by decide) (by decide)⟩

theorem solve_row_duplicate_false_witness :
    WF dupBoard ∧ (0 : Nat) < 9 ∧ (0 : Nat) < 9 ∧ (1 : Nat) < 9 ∧
      (0 : Nat) ≠ 1 ∧ (1 : Nat) ≤ 1 ∧ (1 : Nat) ≤ 9 ∧
      getCell dupBoard 0 0 = 1 ∧ getCell dupBoard 0 1 = 1 ∧
      (∀ r', r' < 9 → ∀ c', c' < 9 → (r', c') ≠ (0, 0) → (r', c') ≠ (0, 1) →
        getCell dupBoard r' c' = 0) ∧
      (solveSudoku dupBoard).1 = false :=
  ⟨by decide, by decide, by decide, by decide, by decide, by decide, by decide,
    by decide, by decide, by decide,
    solve_row_duplicate_false dupBoard (by decide) 0 0 1 1 (by decide)
      (by decide) (by decide) (by decide) (by decide) (by decide) (by decide)
      (by decide) (by decide)⟩

theorem validate_flags_row_pair_witness :
    WF dupBoard ∧
      ((validateBoard dupBoard).2.1 = false ∧
        ∀ p, p ∈ (validateBoard dupBoard).2.2 ↔ p = (0, 0) ∨ p = (0, 1)) :=
  ⟨by decide,
    validate_flags_row_pair dupBoard (by decide) 0 0 1 1 (by decide) (by decide)
      (by decide) (by decide) (by decide) (by decide) (by decide) (by decide)
      (by decide)⟩

theorem validate_no_side_effect_witness :
    WF puzzle1 ∧
      ((validateBoard puzzle1).1 = puzzle1 ∧
        validateBoard ((validateBoard puzzle1).1) = validateBoard puzzle1) :=
  ⟨by decide, validate_no_side_effect puzzle1 (by decide)⟩

theorem solve_depth_bound_witness :
    WF puzzle1 ∧ (∀ r, r < 9 → ∀ c, c < 9 → getCell puzzle1 r c ≤ 9) ∧
      ((solveF (emptyCount puzzle1 + 1) puzzle1).isSome = true ∧
        emptyCount puzzle1 ≤ 81) :=
  ⟨by decide, by decide, solve_depth_bound puzzle1 (by decide) (by decide)⟩

theorem solve_failure_restores_witness :
    WF failBoard ∧ (solveSudoku failBoard).1 = false ∧
      (solveSudoku failBoard).2 = failBoard :=
  ⟨by decide, by decide, solve_failure_restores failBoard (by decide) (by decide)⟩

theorem solve_preserves_clues_witness :
    WF nearBoard ∧ (solveSudoku nearBoard).1 = true ∧
      ∀ r, r < 9 → ∀ c, c < 9 → getCell nearBoard r c ≠ 0 →
        getCell (solveSudoku nearBoard).2 r c = getCell nearBoard r c :=
  ⟨by decide, by decide, solve_preserves_clues nearBoard (by decide) (by decide)⟩
